import Mathlib

/-!
Verification development for the bene-snake MCTS search core.

The definitions below are shallow embeddings of the Rust sources:
  - `src/lib/src/mcts.rs` (joint-move enumerator, tree node, UCB1, search driver)
  - `src/lib/src/agent.rs` (the MCTS agent's final move selection)
  - `src/lib/src/non_pushable_queue.rs` (the pending-action FIFO)
Machine floats (`f32`) are modelled as real numbers, `u16` counters as
naturals reduced modulo 2 ^ 16, and the external game simulator
(`battlesnake-game-types`, not part of the sources) is modelled from the
specification as an abstract record of operations.
-/

/-- One of the four directions, `battlesnake_game_types::types::Move`. -/
inductive Move where
  | up : Move
  | down : Move
  | left : Move
  | right : Move
deriving DecidableEq

/-- Snake identifiers, `SnakeId`: a small integer tag. -/
abbrev SnakeId := Nat

/-- A joint move: one `Move` per live snake, as a list of pairs. -/
abbrev Combination := List (SnakeId × Move)

/-- Per-snake reasonable-move lists, the input of the enumerator. -/
abbrev SnakeMoves := List (SnakeId × List Move)

/-- State of `MoveCombinationIterator` from `src/lib/src/mcts.rs` lines 20-37:
the per-snake move lists, the current mixed-radix indices, and the
exhausted flag. -/
structure MoveCombinationIterator where
  snake_moves : SnakeMoves
  indices : List Nat
  exhausted : Bool
deriving DecidableEq

namespace MoveCombinationIterator

/-- Embedding of `MoveCombinationIterator::new` (mcts.rs lines 27-36):
indices start at zero for every snake and the iterator is born exhausted
exactly when some snake's move list is empty. -/
def new (sm : SnakeMoves) : MoveCombinationIterator :=
  { snake_moves := sm
    indices := List.replicate sm.length 0
    exhausted := sm.any (fun p => p.2.isEmpty) }

/-- The combination built from the current indices (mcts.rs lines 54-59):
`snake_moves.iter().zip(&indices).map(|((sid, moves), idx)| (sid, moves[idx]))`.
The source indexes unconditionally; indices are kept in bounds by the
iterator, and the default value here is never consulted on such states. -/
def currentCombination (sm : SnakeMoves) (idxs : List Nat) : Combination :=
  (sm.zip idxs).map (fun p => (p.1.1, p.1.2.getD p.2 Move.up))

/-- Embedding of the index-increment loop (mcts.rs lines 61-72): walk the
indices from the last position with an incoming carry; an index that
reaches its radix wraps to zero and propagates the carry.  Returns the new
indices and the final carry (true means the iterator is exhausted). -/
def incrIndices : List Nat → List Nat → List Nat × Bool
  | [], _ => ([], true)
  | _ :: _, [] => ([], true)
  | r :: rs, i :: is =>
    match incrIndices rs is with
    | (is2, true) => if i + 1 ≥ r then (0 :: is2, true) else ((i + 1) :: is2, false)
    | (is2, false) => (i :: is2, false)

/-- Embedding of `Iterator::next` for `MoveCombinationIterator`
(mcts.rs lines 42-80), returning the yielded element and the successor
state. -/
def next (it : MoveCombinationIterator) : Option Combination × MoveCombinationIterator :=
  if it.exhausted then (none, it)
  else if it.snake_moves.isEmpty then (some [], { it with exhausted := true })
  else
    let combo := currentCombination it.snake_moves it.indices
    let step := incrIndices (it.snake_moves.map (fun p => p.2.length)) it.indices
    (some combo, { it with indices := step.1, exhausted := step.2 })

/-- Drain the iterator for at most `fuel` steps, collecting the yields. -/
def drain : Nat → MoveCombinationIterator → List Combination
  | 0, _ => []
  | fuel + 1, it =>
    match it.next with
    | (none, _) => []
    | (some c, it2) => c :: drain fuel it2

end MoveCombinationIterator

/-- Every combination the iterator yields, in order: `drain` with enough
fuel to exhaust any input (the product of the list lengths bounds the
number of yields). -/
def collectCombinations (sm : SnakeMoves) : List Combination :=
  MoveCombinationIterator.drain ((sm.map (fun p => p.2.length)).prod + 1)
    (MoveCombinationIterator.new sm)

/-- The cartesian product of the per-snake move lists in mixed-radix order
with the last snake varying fastest: the reference enumeration the
iterator is compared against. -/
def cartesianProduct : SnakeMoves → List Combination
  | [] => [[]]
  | (sid, ms) :: rest =>
    ms.flatMap (fun m => (cartesianProduct rest).map (fun c => (sid, m) :: c))

/-- Indices are in bounds for their move lists (one index per snake). -/
def ValidIdx : SnakeMoves → List Nat → Prop
  | [], [] => True
  | (_, ms) :: rest, i :: is => i < ms.length ∧ ValidIdx rest is
  | _, _ => False

/-- The part of the cartesian product not yet yielded when the current
indices are `idxs`: the combinations at the current head index paired with
the remaining suffix of the tail product, followed by the full blocks of
the later head elements. -/
def suffixFrom : SnakeMoves → List Nat → List Combination
  | [], _ => [[]]
  | _ :: _, [] => [[]]
  | (sid, ms) :: rest, i :: is =>
    (suffixFrom rest is).map (fun c => (sid, ms.getD i Move.up) :: c)
      ++ (ms.drop (i + 1)).flatMap
          (fun m => (cartesianProduct rest).map (fun c => (sid, m) :: c))

/-- Sequential abstraction of `NonPushableQueue`
(src/lib/src/non_pushable_queue.rs): the queue is built once from an
iterator as a linked list of cells and `pop_front` hands out the front
cell's payload and advances the head.  With a single consumer the head
compare-exchange always succeeds, so the queue behaves as this list. -/
structure NonPushableQueue (T : Type) where
  elems : List T
deriving DecidableEq

namespace NonPushableQueue

/-- Embedding of `NonPushableQueue::new_from_iterator`
(non_pushable_queue.rs lines 99-127): the cells hold the iterator's
elements in order. -/
def new_from_iterator {T : Type} (l : List T) : NonPushableQueue T := ⟨l⟩

/-- Embedding of `NonPushableQueue::pop_front`
(non_pushable_queue.rs lines 44-93) under single-consumer sequential
semantics: return the front payload and advance the head, or report empty
when the head is null. -/
def pop_front {T : Type} : NonPushableQueue T → Option T × NonPushableQueue T
  | ⟨[]⟩ => (none, ⟨[]⟩)
  | ⟨x :: xs⟩ => (some x, ⟨xs⟩)

/-- Embedding of `NonPushableQueue::is_empty`
(non_pushable_queue.rs lines 95-97). -/
def is_empty {T : Type} : NonPushableQueue T → Bool
  | ⟨[]⟩ => true
  | ⟨_ :: _⟩ => false

/-- The results of `n` successive `pop_front` calls. -/
def popSeq {T : Type} : Nat → NonPushableQueue T → List (Option T)
  | 0, _ => []
  | n + 1, q =>
    match q.pop_front with
    | (r, q2) => r :: popSeq n q2

end NonPushableQueue

/-- The atomic win and visit counters of a tree node
(`Node.wins`, `Node.visits` in src/lib/src/mcts.rs lines 95-96; `AtomicU16`
in the source, read here as the natural number they store). -/
structure NodeCounters where
  wins : Nat
  visits : Nat
deriving DecidableEq

/-- Embedding of `Node::ucb1_from_ref` (mcts.rs lines 166-176) with `f32`
arithmetic modelled over the reals: the source computes
`wins + c * (visits_to_parent.ln().sqrt() / (visits + 1))` — the square
root is taken of `ln` of the parent visits alone and the result is then
divided by `visits + 1`. -/
noncomputable def ucb1_from_ref (n : NodeCounters) (c visits_to_parent : ℝ) : ℝ :=
  (n.wins : ℝ) + c * (Real.sqrt (Real.log visits_to_parent) / ((n.visits : ℝ) + 1))

/-- Formula of spec section 4.C, stated from the spec's words for
comparison with the source's `ucb1_from_ref`:
`score(child) = wins(child) + c * sqrt( ln(visits(parent)) / (visits(child) + 1) )`,
the square root applied to the whole quotient. -/
noncomputable def ucb1_spec (wins visits : Nat) (c parentVisits : ℝ) : ℝ :=
  (wins : ℝ) + c * Real.sqrt (Real.log parentVisits / ((visits : ℝ) + 1))

/-- Embedding of the `Iterator::max_by` call inside `Node::best_child`
(mcts.rs lines 129-140).  Rust's `max_by` reduces the iterator keeping the
accumulator only when the comparator says it is strictly greater, so the
last maximal element wins ties.  The source comparator scores the
accumulator (`node1`) with the calling node's `self.visits` but scores the
candidate (`node2`) with the candidate's **own** visit count as
`visits_to_parent`.  `cnt` projects the stored counters out of a child
entry. -/
noncomputable def max_by_ucb1 {α : Type} (c : ℝ) (parentVisits : Nat)
    (cnt : α → NodeCounters) : List α → Option α
  | [] => none
  | x :: xs =>
    some (xs.foldl
      (fun acc y =>
        if ucb1_from_ref (cnt acc) c (parentVisits : ℝ) >
            ucb1_from_ref (cnt y) c (((cnt y).visits : ℝ)) then acc else y)
      x)

/-- Embedding of `Node::best_child` (mcts.rs lines 129-140) on the ordered
child entries of the node: children are listed in the stable key order of
the `BTreeMap`, each entry carrying its key and its counters. -/
noncomputable def best_child {α : Type} (c : ℝ) (parentVisits : Nat)
    (children : List (α × NodeCounters)) : Option (α × NodeCounters) :=
  max_by_ucb1 c parentVisits (fun p => p.2) children

/-- Reference selection used to characterise `best_child` at `c = 0`: the
reduction that keeps the accumulator only when its win tally is strictly
greater, i.e. the last entry with the maximal `wins`. -/
def selectByWins {α : Type} : List (α × NodeCounters) → Option (α × NodeCounters)
  | [] => none
  | x :: xs => some (xs.foldl (fun acc y => if acc.2.wins > y.2.wins then acc else y) x)

/-- An `Action<4>` as consumed by the agent: `action.into_inner()` is an
array of four optional moves indexed by snake id. -/
abbrev ActionMoves := List (Option Move)

/-- Embedding of the final move selection of `MctsAgent::choose_move`
(src/lib/src/agent.rs lines 91-98): query `best_child` with the agent's
exploration constant (`0.0` in both constructors), project the self
snake's move out of the winning action, and fall back to `Move::Up` when
the root has no children or the action carries no move for the self
snake. -/
noncomputable def choose_move_final (children : List (ActionMoves × NodeCounters))
    (rootVisits : Nat) (you : Nat) : Move :=
  match best_child 0 rootVisits children with
  | some (a, _) =>
    match a.getD you none with
    | some mv => mv
    | none => Move.up
  | none => Move.up

/-- Modelled from the spec: the external game simulator
(the `battlesnake-game-types` crate, whose sources are not part of this
repository) as described in spec section 6.2.  `isOver` is
`Board::is_over`, `reasonable` is `reasonable_moves_for_each_snake`
(per-snake move lists, possibly empty), `simulate` is
`simulate_with_moves` returning the canonical action key and the next
board, `winner` is `get_winner`, `randStep` combines the randomized
reasonable-move sampler with one simulation step as the rollout loop does,
and `rolloutBound` bounds the playout length (the spec guarantees rollout
termination in section 4.D).  Action keys are modelled as naturals in the
`BTreeMap` key order. -/
structure SimModel (β : Type) where
  isOver : β → Bool
  reasonable : β → SnakeMoves
  simulate : β → Combination → Nat × β
  winner : β → Option Nat
  randStep : β → Nat → β
  rolloutBound : Nat

/-- Functional model of the shared search tree rooted at a `Node`
(mcts.rs lines 90-97): the board, the two `u16` counters, the pending
queue's remaining combinations, and the child map as a key-ordered list.
The weak parent back-link of the source is represented by recursion along
the descent path instead of an explicit pointer. -/
inductive MTree (β : Type) where
  | node : β → Nat → Nat → List Combination → List (Nat × MTree β) → MTree β

namespace MTree

/-- The stored `wins` counter of the node. -/
def wins {β : Type} : MTree β → Nat
  | .node _ w _ _ _ => w

/-- The stored `visits` counter of the node. -/
def visits {β : Type} : MTree β → Nat
  | .node _ _ v _ _ => v

/-- The node's board. -/
def board {β : Type} : MTree β → β
  | .node b _ _ _ _ => b

/-- The remaining pending joint-move combinations of the node. -/
def pending {β : Type} : MTree β → List Combination
  | .node _ _ _ p _ => p

/-- The child map of the node in key order. -/
def children {β : Type} : MTree β → List (Nat × MTree β)
  | .node _ _ _ _ ch => ch

/-- The node's counters as read by `ucb1_from_ref`. -/
def counters {β : Type} : MTree β → NodeCounters
  | .node _ w v _ _ => ⟨w, v⟩

end MTree

/-- Embedding of `Node::new_child` (mcts.rs lines 107-119): collect the
reasonable moves of the board, build the pending queue from the
combination enumerator, start with an empty child map and zero
counters. -/
def new_child {β : Type} (sim : SimModel β) (b : β) : MTree β :=
  .node b 0 0 (collectCombinations (sim.reasonable b)) []

/-- Embedding of `Node::new_root` (mcts.rs lines 104-106): a child node
with no parent. -/
def new_root {β : Type} (sim : SimModel β) (b : β) : MTree β :=
  new_child sim b

/-- Embedding of `Node::is_terminal` (mcts.rs lines 201-203). -/
def is_terminal {β : Type} (sim : SimModel β) (t : MTree β) : Bool :=
  sim.isOver t.board

/-- Embedding of `Node::is_fully_expanded` (mcts.rs lines 141-143): the
pending queue is empty. -/
def is_fully_expanded {β : Type} (t : MTree β) : Bool :=
  t.pending.isEmpty

/-- Embedding of `BTreeMap::insert` on the key-ordered child list: place the entry at
its key position, replacing an entry with an equal key. -/
def insertChild {β : Type} (a : Nat) (t : MTree β) :
    List (Nat × MTree β) → List (Nat × MTree β)
  | [] => [(a, t)]
  | (b, u) :: rest =>
    if a < b then (a, t) :: (b, u) :: rest
    else if a = b then (a, t) :: rest
    else (b, u) :: insertChild a t rest

/-- Writing the updated subtree back to its key after the selection
descent returns (the source mutates the shared child in place). -/
def replaceChild {β : Type} (a : Nat) (t : MTree β) (ch : List (Nat × MTree β)) :
    List (Nat × MTree β) :=
  ch.map (fun q => if q.1 = a then (a, t) else q)

/-- Embedding of `Node::expand` (mcts.rs lines 144-159): pop one pending
combination (no-op when the queue is empty), simulate it to obtain the
action key and the next board, and insert a fresh child node under that
key. -/
def expandT {β : Type} (sim : SimModel β) : MTree β → MTree β
  | .node b w v pend ch =>
    match pend with
    | [] => .node b w v [] ch
    | mv :: rest =>
      let sa := sim.simulate b mv
      .node b w v rest (insertChild sa.1 (new_child sim sa.2) ch)

/-- The rollout walk of `Node::rollout` (mcts.rs lines 178-194): step the
board with one random reasonable move per snake until the simulator
reports the board over.  The source loop is bounded only by the game-over
predicate; the spec (section 4.D) guarantees termination, modelled here by
the simulator's `rolloutBound` on the trace length. -/
def rolloutWalk {β : Type} (sim : SimModel β) : Nat → Nat → β → β
  | 0, _, b => b
  | fuel + 1, rng, b =>
    if sim.isOver b then b else rolloutWalk sim fuel (rng + 1) (sim.randStep b rng)

/-- Embedding of the outcome of `Node::rollout` (mcts.rs lines 195-199):
1 when the winner of the final board is the self snake, else 0. -/
def rolloutT {β : Type} (sim : SimModel β) (you rng : Nat) (b : β) : Nat :=
  if sim.winner (rolloutWalk sim sim.rolloutBound rng b) = some you then 1 else 0

/-- One `fetch_add` pair of `Node::backpropagate` (mcts.rs lines 204-212)
applied to this node's counters: `visits` gains 1 and `wins` gains the
rollout outcome, both wrapping modulo 2 ^ 16 because the counters are
`AtomicU16`. -/
def bumpT {β : Type} (t : MTree β) (r : Nat) : MTree β :=
  match t with
  | .node b w v pend ch => .node b ((w + r) % 65536) ((v + 1) % 65536) pend ch

/-- The child selected by the descent: `Node::best_child` at `c = 1.4`
over the tree model's child entries, with exactly the source comparator of
mcts.rs lines 133-138. -/
noncomputable def best_childT {β : Type} (c : ℝ) (parentVisits : Nat)
    (ch : List (Nat × MTree β)) : Option (Nat × MTree β) :=
  max_by_ucb1 c parentVisits (fun q => q.2.counters) ch

/-- One iteration of the loop body of `mcts_search`
(mcts.rs lines 221-235): descend through best children while the current
node is non-terminal and fully expanded (`none` models the `expect`
panic when `best_child` finds no children, and is also returned when the
descent fuel runs out — the driver always passes enough fuel); at the
frontier expand unless terminal, roll out from the frontier node (not the
new child), and add the outcome along the whole path on unwinding, which
is the walk of `Node::backpropagate` up the parent chain. -/
noncomputable def mctsIter {β : Type} (sim : SimModel β) (you rng : Nat) :
    Nat → MTree β → Option (MTree β × Nat)
  | 0, _ => none
  | dfuel + 1, t =>
    match t with
    | .node b w v pend ch =>
      if sim.isOver b = false ∧ pend = [] then
        match best_childT 1.4 v ch with
        | none => none
        | some (a, c) =>
          match mctsIter sim you rng dfuel c with
          | none => none
          | some (c2, r) =>
            some (.node b ((w + r) % 65536) ((v + 1) % 65536) pend (replaceChild a c2 ch), r)
      else
        let t1 := if sim.isOver b then t else expandT sim t
        let r := rolloutT sim you rng b
        some (bumpT t1 r, r)

/-- The loop of `mcts_search` (mcts.rs lines 215-237): at iteration `i`
check the stop flag first and return the tree untouched when it is set;
otherwise run one iteration and continue.  `stop i` is the value the
relaxed load reads at the top of iteration `i`, `rngs i` seeds that
iteration's rollout, and `fuel` bounds the number of observed iterations
of the unbounded source loop.  The descent fuel `i + 2` strictly exceeds
the tree height, which grows by at most one per completed iteration, so
the inner `none` can only signal the `expect` failure, on which the
model stops with the tree unchanged (the source thread panics). -/
noncomputable def mcts_searchAux {β : Type} (sim : SimModel β) (you : Nat)
    (stop : Nat → Bool) (rngs : Nat → Nat) : Nat → Nat → MTree β → MTree β
  | _, 0, t => t
  | i, fuel + 1, t =>
    if stop i then t
    else
      match mctsIter sim you (rngs i) (i + 2) t with
      | none => t
      | some (t2, _) => mcts_searchAux sim you stop rngs (i + 1) fuel t2

/-- Embedding of `mcts_search` (mcts.rs lines 215-237) started at
iteration 0 on the given root. -/
noncomputable def mcts_search {β : Type} (sim : SimModel β) (you : Nat)
    (stop : Nat → Bool) (rngs : Nat → Nat) (fuel : Nat) (t : MTree β) : MTree β :=
  mcts_searchAux sim you stop rngs 0 fuel t

/-- Every node of the tree satisfies `wins ≤ visits` and `visits ≤ k`. -/
inductive BoundedLE {β : Type} : Nat → MTree β → Prop where
  | mk {k w v : Nat} {b : β} {pend : List Combination} {ch : List (Nat × MTree β)} :
      w ≤ v → v ≤ k → (∀ q ∈ ch, BoundedLE k q.2) →
      BoundedLE k (.node b w v pend ch)

/-- A concrete simulator instance on `Nat` boards whose board 0 is not
over yet gives its only snake an empty reasonable-move list — the
stuck-snake situation of spec section 4.B. -/
def simStuck : SimModel Nat where
  isOver := fun b => decide (0 < b)
  reasonable := fun b => if b = 0 then [(0, [])] else [(0, [Move.up])]
  simulate := fun b _ => (0, b + 1)
  winner := fun _ => none
  randStep := fun b _ => b + 1
  rolloutBound := 4

/-- The counter update of one `Node::backpropagate` call
(mcts.rs lines 204-212) on a single node's `(wins, visits)` pair: both
`fetch_add`s act on `AtomicU16`, hence modulo 2 ^ 16 = 65536. -/
def backpropagate_u16 (c : Nat × Nat) (result : Nat) : Nat × Nat :=
  ((c.1 + result) % 65536, (c.2 + 1) % 65536)

/-- The counters of one node after a sequence of backpropagation passes
with the given rollout outcomes. -/
def backpropagate_seq (outcomes : List Nat) (c : Nat × Nat) : Nat × Nat :=
  outcomes.foldl backpropagate_u16 c

/-- Popping an empty queue any number of times keeps answering empty. -/
theorem NonPushableQueue.popSeq_nil {T : Type} (k : Nat) :
    NonPushableQueue.popSeq k (⟨[]⟩ : NonPushableQueue T) = List.replicate k none := by
  induction k with
  | zero => rfl
  | succ n ih => simp [NonPushableQueue.popSeq, NonPushableQueue.pop_front, ih, List.replicate]

/-- Sequential pops return the construction list in order, then empties. -/
theorem NonPushableQueue.popSeq_new {T : Type} (l : List T) (k : Nat) :
    NonPushableQueue.popSeq (l.length + k) (NonPushableQueue.new_from_iterator l)
      = l.map some ++ List.replicate k none := by
  induction l with
  | nil => simpa [NonPushableQueue.new_from_iterator] using NonPushableQueue.popSeq_nil (T := T) k
  | cons x xs ih =>
    have harith : xs.length + 1 + k = (xs.length + k) + 1 := by omega
    simp only [List.length_cons, harith, NonPushableQueue.new_from_iterator,
      NonPushableQueue.popSeq, NonPushableQueue.pop_front, List.map_cons, List.cons_append]
    exact congrArg (List.cons (some x)) ih

/-- C9: single-threaded repeated `pop_front` on a `NonPushableQueue` built
from a sequence returns the elements in FIFO order followed by empties,
and every later pop is also empty; in particular `[1,2,3,4,5]` yields
`1,2,3,4,5,empty` and the empty queue yields `empty` on the first and
second pop. -/
theorem claim_C9 :
    (∀ (T : Type) (l : List T) (k : Nat),
        NonPushableQueue.popSeq (l.length + k) (NonPushableQueue.new_from_iterator l)
          = l.map some ++ List.replicate k none)
    ∧ NonPushableQueue.popSeq 6 (NonPushableQueue.new_from_iterator [1, 2, 3, 4, 5])
        = [some 1, some 2, some 3, some 4, some 5, none]
    ∧ NonPushableQueue.popSeq 2 (NonPushableQueue.new_from_iterator ([] : List Nat))
        = [none, none] := by
  refine ⟨fun T l k => NonPushableQueue.popSeq_new l k, ?_, ?_⟩ <;> decide

/-- Closed form for a node's counters after a sequence of backpropagation
passes: both `u16` counters hold their true totals modulo 2 ^ 16. -/
theorem backpropagate_seq_closed (l : List Nat) :
    ∀ w v : Nat, w < 65536 → v < 65536 →
      backpropagate_seq l (w, v) = ((w + l.sum) % 65536, (v + l.length) % 65536) := by
  induction l with
  | nil =>
    intro w v hw hv
    simp [backpropagate_seq, Nat.mod_eq_of_lt hw, Nat.mod_eq_of_lt hv]
  | cons x xs ih =>
    intro w v hw hv
    have h1 : (w + x) % 65536 < 65536 := Nat.mod_lt _ (by norm_num)
    have h2 : (v + 1) % 65536 < 65536 := Nat.mod_lt _ (by norm_num)
    have := ih ((w + x) % 65536) ((v + 1) % 65536) h1 h2
    simp only [backpropagate_seq, List.foldl_cons] at this ⊢
    rw [show backpropagate_u16 (w, v) x = ((w + x) % 65536, (v + 1) % 65536) from rfl, this]
    simp only [List.sum_cons, List.length_cons, Prod.mk.injEq]
    constructor <;> omega

/-- C10: the `wins` and `visits` counters are 16-bit (`AtomicU16`), so
backpropagation arithmetic is modulo 2 ^ 16 = 65536: starting from zeroed
counters, the stored pair is the true totals mod 65536, and after exactly
65536 completed passes through a node its `visits` counter reads 0
again. -/
theorem claim_C10 :
    (∀ outcomes : List Nat,
        backpropagate_seq outcomes (0, 0)
          = (outcomes.sum % 65536, outcomes.length % 65536))
    ∧ ∀ r : Nat, (backpropagate_seq (List.replicate 65536 r) (0, 0)).2 = 0 := by
  constructor
  · intro outcomes
    simpa using backpropagate_seq_closed outcomes 0 0 (by norm_num) (by norm_num)
  · intro r
    rw [backpropagate_seq_closed (List.replicate 65536 r) 0 0 (by norm_num) (by norm_num)]
    rw [List.length_replicate]

/-- C7 does not survive the 16-bit counters: 65536 backpropagation passes
whose first 65535 outcomes are wins and whose last is a loss leave the
node with `wins = 65535` but `visits = 0`, so `wins ≤ visits` fails at
that observation point. -/
theorem claim_C7_counterexample :
    ¬ ((backpropagate_seq (List.replicate 65535 1 ++ [0]) (0, 0)).1
        ≤ (backpropagate_seq (List.replicate 65535 1 ++ [0]) (0, 0)).2) := by
  have h := backpropagate_seq_closed (List.replicate 65535 1 ++ [0]) 0 0
    (by norm_num) (by norm_num)
  rw [h]
  have hs : (List.replicate 65535 (1 : Nat) ++ [0]).sum = 65535 := by
    rw [List.sum_append, List.sum_replicate]
    norm_num
  have hl : (List.replicate 65535 (1 : Nat) ++ [0]).length = 65536 := by
    rw [List.length_append, List.length_replicate]; rfl
  rw [hs, hl]
  norm_num

/-- C1 fails on the code: at `wins = 0`, `visits = 3`, `c = 1` and parent
visits `2`, the source computes `sqrt(ln 2) / 4` while the claimed formula
gives `sqrt(ln 2 / 4) = sqrt(ln 2) / 2`, and these differ. -/
theorem claim_C1_counterexample :
    ucb1_from_ref ⟨0, 3⟩ 1 2 ≠ ucb1_spec 0 3 1 2 := by
  have hpos : 0 < Real.sqrt (Real.log 2) :=
    Real.sqrt_pos.mpr (Real.log_pos (by norm_num))
  simp only [ucb1_from_ref, ucb1_spec]
  intro h
  rw [Real.sqrt_div (Real.log_nonneg (by norm_num)) _] at h
  have h4 : Real.sqrt (((3 : Nat) : ℝ) + 1) = 2 := by
    rw [show (((3 : Nat) : ℝ) + 1) = 2 ^ 2 by norm_num,
      Real.sqrt_sq (by norm_num : (0 : ℝ) ≤ 2)]
  rw [h4] at h
  have h34 : (((3 : Nat) : ℝ) + 1) = 4 := by norm_num
  rw [h34] at h
  norm_num at h
  linarith

/-- C1 amended: `ucb1_from_ref` computes
`wins + c * (sqrt(ln parentVisits) / (visits + 1))`, the square root taken
of the logarithm alone before the division; the `+1` keeps the denominator
nonzero for `visits = 0`, and at `visits = 0` the value coincides with the
spec's `sqrt`-of-quotient formula. -/
theorem claim_C1 :
    (∀ (w v : Nat) (c N : ℝ),
        ucb1_from_ref ⟨w, v⟩ c N
          = (w : ℝ) + c * (Real.sqrt (Real.log N) / ((v : ℝ) + 1))
        ∧ ((v : ℝ) + 1) ≠ 0)
    ∧ ∀ (w : Nat) (c N : ℝ), ucb1_from_ref ⟨w, 0⟩ c N = ucb1_spec w 0 c N := by
  constructor
  · intro w v c N
    exact ⟨rfl, by positivity⟩
  · intro w c N
    simp [ucb1_from_ref, ucb1_spec]

/-- C2 fails on the code: with parent visits 1, exploration constant 10
and the children `key 0 ↦ (wins 1, visits 0)`, `key 1 ↦ (wins 0, visits 2)`
in key order, `best_child` returns the key-1 child although the key-0
child is the strict argmax of the UCB1 score computed with the parent's
visits for every candidate (second conjunct).  The comparator scores the
right-hand candidate with that candidate's own visit count
(`node2.visits` is passed as `visits_to_parent` in mcts.rs line 136), so
the key-1 child wins the comparison. -/
theorem claim_C2_best_child_bug :
    best_child 10 1 [(0, ⟨1, 0⟩), (1, ⟨0, 2⟩)] = some (1, (⟨0, 2⟩ : NodeCounters))
    ∧ ucb1_from_ref ⟨0, 2⟩ 10 1 < ucb1_from_ref ⟨1, 0⟩ 10 1 := by
  have hs : (0.3 : ℝ) < Real.sqrt (Real.log 2) := by
    rw [Real.lt_sqrt (by norm_num)]
    nlinarith [Real.log_two_gt_d9]
  have hone : ucb1_from_ref ⟨1, 0⟩ 10 1 = 1 := by
    simp [ucb1_from_ref]
  have htwo : (1 : ℝ) < ucb1_from_ref ⟨0, 2⟩ 10 2 := by
    simp only [ucb1_from_ref]
    push_cast
    nlinarith [hs]
  constructor
  · have hcmp : ¬ (ucb1_from_ref ⟨1, 0⟩ 10 1 > ucb1_from_ref ⟨0, 2⟩ 10 2) := by
      rw [hone]
      intro hgt
      linarith
    simp only [best_child, max_by_ucb1, List.foldl_cons, List.foldl_nil]
    rw [if_neg (by simpa using hcmp)]
  · rw [hone]
    simp only [ucb1_from_ref]
    push_cast
    rw [show Real.log (1 : ℝ) = 0 from Real.log_one, Real.sqrt_zero]
    norm_num

/-- At `c = 0` the exploration term vanishes: the UCB1 score of a node is
just its win tally, whatever value is passed for the parent visits. -/
theorem ucb1_from_ref_zero (n : NodeCounters) (N : ℝ) :
    ucb1_from_ref n 0 N = (n.wins : ℝ) := by
  simp [ucb1_from_ref]

/-- With the exploration constant 0 of the final move choice,
`best_child` reduces to the pure win-tally reduction `selectByWins` (the
wrong-side parent-visits slip in the comparator is immaterial because the
exploration term is zero on both sides). -/
theorem best_child_zero {α : Type} (pv : Nat) (l : List (α × NodeCounters)) :
    best_child 0 pv l = selectByWins l := by
  cases l with
  | nil => rfl
  | cons x xs =>
    simp only [best_child, max_by_ucb1, selectByWins, Option.some.injEq]
    apply List.foldl_ext
    intro acc y _
    rw [ucb1_from_ref_zero, ucb1_from_ref_zero]
    by_cases h : y.2.wins < acc.2.wins
    · rw [if_pos (by exact_mod_cast h), if_pos h]
    · rw [if_neg (by exact_mod_cast h), if_neg h]

/-- The reduction of `selectByWins` stays inside the list and returns an
entry whose win tally dominates the accumulator and every listed entry. -/
theorem foldl_selectByWins_spec {α : Type} (xs : List (α × NodeCounters)) :
    ∀ acc : α × NodeCounters,
      (xs.foldl (fun a y => if a.2.wins > y.2.wins then a else y) acc = acc
        ∨ xs.foldl (fun a y => if a.2.wins > y.2.wins then a else y) acc ∈ xs)
      ∧ acc.2.wins ≤ (xs.foldl (fun a y => if a.2.wins > y.2.wins then a else y) acc).2.wins
      ∧ ∀ y ∈ xs,
          y.2.wins ≤ (xs.foldl (fun a y => if a.2.wins > y.2.wins then a else y) acc).2.wins := by
  induction xs with
  | nil =>
    intro acc
    exact ⟨Or.inl rfl, le_refl _, by intro y hy; cases hy⟩
  | cons z zs ih =>
    intro acc
    have step : (if acc.2.wins > z.2.wins then acc else z) = acc
        ∨ (if acc.2.wins > z.2.wins then acc else z) = z := by
      by_cases h : acc.2.wins > z.2.wins
      · exact Or.inl (if_pos h)
      · exact Or.inr (if_neg h)
    have hacc : acc.2.wins ≤ (if acc.2.wins > z.2.wins then acc else z).2.wins := by
      by_cases h : acc.2.wins > z.2.wins
      · rw [if_pos h]
      · rw [if_neg h]; omega
    have hz : z.2.wins ≤ (if acc.2.wins > z.2.wins then acc else z).2.wins := by
      by_cases h : acc.2.wins > z.2.wins
      · rw [if_pos h]; omega
      · rw [if_neg h]
    obtain ⟨hmem, hge, hall⟩ := ih (if acc.2.wins > z.2.wins then acc else z)
    refine ⟨?_, ?_, ?_⟩
    · simp only [List.foldl_cons]
      rcases hmem with hm | hm
      · rw [hm]
        rcases step with hs | hs
        · exact Or.inl hs
        · exact Or.inr (by rw [hs]; exact List.mem_cons_self z zs)
      · exact Or.inr (List.mem_cons_of_mem z hm)
    · simp only [List.foldl_cons]
      exact le_trans hacc hge
    · intro y hy
      simp only [List.foldl_cons]
      rcases List.mem_cons.mp hy with hyz | hyzs
      · exact le_trans (by rw [hyz]; exact hz) hge
      · exact hall y hyzs

/-- C3 amended: the final selection (`best_child` with the agent's
exploration constant 0) returns the root child with the highest `wins`
tally, not the highest `visits`; the tie-break keeps the later entry in
the child map's stable key order.  The hypothesis restricts to children
that have been visited at least once, where the real-valued model of the
`f32` score is exact. -/
theorem claim_C3 (pv : Nat) (ch : List (ActionMoves × NodeCounters))
    (_hv : ∀ q ∈ ch, 1 ≤ q.2.visits) :
    best_child 0 pv ch = selectByWins ch
    ∧ (best_child 0 pv ch = none ↔ ch = [])
    ∧ ∀ s, best_child 0 pv ch = some s →
        s ∈ ch ∧ ∀ y ∈ ch, y.2.wins ≤ s.2.wins := by
  clear _hv
  refine ⟨best_child_zero pv ch, ?_, ?_⟩
  · rw [best_child_zero]
    cases ch with
    | nil => simp [selectByWins]
    | cons x xs => simp [selectByWins]
  · intro s hs
    rw [best_child_zero] at hs
    cases ch with
    | nil => cases hs
    | cons x xs =>
      simp only [selectByWins, Option.some.injEq] at hs
      obtain ⟨hmem, _, hall⟩ := foldl_selectByWins_spec xs x
      constructor
      · rw [← hs] at *
        rcases hmem with hm | hm
        · rw [hm]; exact List.mem_cons_self x xs
        · exact List.mem_cons_of_mem x hm
      · intro y hy
        obtain ⟨_, hge, hall2⟩ := foldl_selectByWins_spec xs x
        rcases List.mem_cons.mp hy with hyx | hyxs
        · rw [hs] at hge; rw [hyx]; exact hge
        · rw [hs] at hall2; exact hall2 y hyxs

/-- Witness for C3 at a concrete child map with all children visited. -/
theorem claim_C3_witness :
    (∀ q ∈ ([([some Move.up, none, none, none], ⟨2, 3⟩),
             ([some Move.down, none, none, none], ⟨1, 1⟩)] :
        List (ActionMoves × NodeCounters)), 1 ≤ q.2.visits)
    ∧ (best_child 0 4 [([some Move.up, none, none, none], ⟨2, 3⟩),
                       ([some Move.down, none, none, none], ⟨1, 1⟩)]
        = selectByWins [([some Move.up, none, none, none], ⟨2, 3⟩),
                        ([some Move.down, none, none, none], ⟨1, 1⟩)]
      ∧ (best_child 0 4 [([some Move.up, none, none, none], ⟨2, 3⟩),
                         ([some Move.down, none, none, none], ⟨1, 1⟩)] = none
          ↔ ([([some Move.up, none, none, none], ⟨2, 3⟩),
              ([some Move.down, none, none, none], ⟨1, 1⟩)] :
              List (ActionMoves × NodeCounters)) = [])
      ∧ ∀ s, best_child 0 4 [([some Move.up, none, none, none], ⟨2, 3⟩),
                             ([some Move.down, none, none, none], ⟨1, 1⟩)] = some s →
          s ∈ ([([some Move.up, none, none, none], ⟨2, 3⟩),
               ([some Move.down, none, none, none], ⟨1, 1⟩)] :
               List (ActionMoves × NodeCounters))
          ∧ ∀ y ∈ ([([some Move.up, none, none, none], ⟨2, 3⟩),
                   ([some Move.down, none, none, none], ⟨1, 1⟩)] :
                   List (ActionMoves × NodeCounters)),
              y.2.wins ≤ s.2.wins) :=
  ⟨by decide, claim_C3 4 _ (by decide)⟩

/-- C3 fails as stated: with root visits 6 and root children
`(action up) ↦ (wins 0, visits 5)` and `(action down) ↦ (wins 1, visits 1)`
in key order, the final selection returns the `down` child (higher wins)
and `choose_move` answers `down`, although the child with the highest
visits tally is the `up` child. -/
theorem claim_C3_counterexample :
    choose_move_final [([some Move.up, none, none, none], ⟨0, 5⟩),
                       ([some Move.down, none, none, none], ⟨1, 1⟩)] 6 0 = Move.down
    ∧ best_child 0 6 [([some Move.up, none, none, none], ⟨0, 5⟩),
                      ([some Move.down, none, none, none], ⟨1, 1⟩)]
        = some ([some Move.down, none, none, none], (⟨1, 1⟩ : NodeCounters))
    ∧ ((⟨1, 1⟩ : NodeCounters)).visits < ((⟨0, 5⟩ : NodeCounters)).visits := by
  have hb : best_child 0 6 [([some Move.up, none, none, none], ⟨0, 5⟩),
        ([some Move.down, none, none, none], ⟨1, 1⟩)]
      = some ([some Move.down, none, none, none], (⟨1, 1⟩ : NodeCounters)) := by
    rw [best_child_zero]
    decide
  refine ⟨?_, hb, by decide⟩
  rw [choose_move_final, hb]
  rfl

/-- C8 amended: when the root has no children (and likewise when the
winning action holds no move for the self snake) `choose_move` returns the
fixed default `Move::Up`, not `Down`. -/
theorem claim_C8 :
    ∀ (rootVisits you : Nat), choose_move_final [] rootVisits you = Move.up := by
  intro rootVisits you
  rfl

/-- C8 fails as stated: on a childless root the returned default move is
`Up`, which is not `Down`. -/
theorem claim_C8_counterexample :
    choose_move_final [] 0 0 = Move.up ∧ Move.up ≠ Move.down := by
  exact ⟨rfl, by decide⟩

/-- The cartesian product is empty exactly when some snake's move list is
empty. -/
theorem cartesianProduct_eq_nil_iff (sm : SnakeMoves) :
    cartesianProduct sm = [] ↔ ∃ p ∈ sm, p.2 = [] := by
  induction sm with
  | nil => simp [cartesianProduct]
  | cons p rest ih =>
    obtain ⟨sid, ms⟩ := p
    simp only [cartesianProduct]
    rw [List.flatMap_eq_nil_iff]
    constructor
    · intro h
      by_cases hms : ms = []
      · exact ⟨(sid, ms), List.mem_cons_self _ _, hms⟩
      · obtain ⟨m, hm⟩ := List.exists_mem_of_ne_nil ms hms
        have h2 := h m hm
        rw [List.map_eq_nil_iff] at h2
        obtain ⟨q, hq, hq2⟩ := ih.mp h2
        exact ⟨q, List.mem_cons_of_mem _ hq, hq2⟩
    · rintro ⟨q, hq, hq2⟩
      rcases List.mem_cons.mp hq with h1 | h1
      · intro m hm
        rw [h1] at hq2
        simp only at hq2
        rw [hq2] at hm
        cases hm
      · intro m _
        rw [List.map_eq_nil_iff]
        exact ih.mpr ⟨q, h1, hq2⟩

/-- The cartesian product has one entry per mixed-radix counter value. -/
theorem length_cartesianProduct (sm : SnakeMoves) :
    (cartesianProduct sm).length = (sm.map (fun p => p.2.length)).prod := by
  induction sm with
  | nil => rfl
  | cons p rest ih =>
    obtain ⟨sid, ms⟩ := p
    simp only [cartesianProduct, List.length_flatMap, List.map_map, List.map_cons,
      List.prod_cons]
    have : ∀ m : Move,
        ((fun c => (sid, m) :: c) <$> cartesianProduct rest).length
          = (cartesianProduct rest).length := by
      intro m
      simp
    calc (ms.map (fun m => ((cartesianProduct rest).map (fun c => (sid, m) :: c)).length)).sum
        = (ms.map (fun _ => (cartesianProduct rest).length)).sum := by
          congr 1
          apply List.map_congr_left
          intro m _
          simp
      _ = ms.length * (cartesianProduct rest).length := by
          induction ms with
          | nil => simp
          | cons a as ihm =>
            simp only [List.map_cons, List.sum_cons, List.length_cons, ihm, Nat.succ_mul]
            ring
      _ = ms.length * (rest.map (fun p => p.2.length)).prod := by rw [ih]

/-- A nonempty snake list never produces the empty combination. -/
theorem nil_not_mem_cartesianProduct (p : SnakeId × List Move) (rest : SnakeMoves) :
    [] ∉ cartesianProduct (p :: rest) := by
  obtain ⟨sid, ms⟩ := p
  intro h
  simp only [cartesianProduct, List.mem_flatMap, List.mem_map] at h
  obtain ⟨m, _, c, _, hc⟩ := h
  cases hc

/-- The all-zero index vector is valid when every move list is
nonempty. -/
theorem validIdx_zeros (sm : SnakeMoves) (h : ∀ p ∈ sm, p.2 ≠ []) :
    ValidIdx sm (List.replicate sm.length 0) := by
  induction sm with
  | nil => trivial
  | cons p rest ih =>
    obtain ⟨sid, ms⟩ := p
    refine ⟨?_, ih (fun q hq => h q (List.mem_cons_of_mem _ hq))⟩
    have := h (sid, ms) (List.mem_cons_self _ _)
    exact List.length_pos.mpr this

/-- At the all-zero indices nothing has been yielded yet: the remaining
suffix is the whole cartesian product. -/
theorem suffixFrom_zeros (sm : SnakeMoves) (h : ∀ p ∈ sm, p.2 ≠ []) :
    suffixFrom sm (List.replicate sm.length 0) = cartesianProduct sm := by
  induction sm with
  | nil => rfl
  | cons p rest ih =>
    obtain ⟨sid, ms⟩ := p
    have hms : ms ≠ [] := h (sid, ms) (List.mem_cons_self _ _)
    have hrest : ∀ q ∈ rest, q.2 ≠ [] := fun q hq => h q (List.mem_cons_of_mem _ hq)
    simp only [List.length_cons, List.replicate_succ, suffixFrom, cartesianProduct]
    rw [ih hrest]
    obtain ⟨m0, ms2, rfl⟩ := List.exists_cons_of_ne_nil hms
    simp only [List.getD_cons_zero, List.drop_succ_cons, List.drop_zero, List.flatMap_cons]

/-- When the increment loop carries out of the topmost digit it has reset
every index to zero. -/
theorem incrIndices_carry_eq_zeros (sm : SnakeMoves) :
    ∀ is is2 : List Nat, ValidIdx sm is →
      MoveCombinationIterator.incrIndices (sm.map (fun p => p.2.length)) is = (is2, true) →
      is2 = List.replicate sm.length 0 := by
  induction sm with
  | nil =>
    intro is is2 hv h
    cases is with
    | nil =>
      simp only [List.map_nil, MoveCombinationIterator.incrIndices, Prod.mk.injEq] at h
      rw [← h.1]
      rfl
    | cons i is0 => exact absurd hv (by simp [ValidIdx])
  | cons p rest ih =>
    intro is is2 hv h
    obtain ⟨sid, ms⟩ := p
    cases is with
    | nil => exact absurd hv (by simp [ValidIdx])
    | cons i is0 =>
      obtain ⟨hi, hv0⟩ := hv
      simp only [List.map_cons, MoveCombinationIterator.incrIndices] at h
      rcases hrec : MoveCombinationIterator.incrIndices (rest.map (fun p => p.2.length)) is0
        with ⟨js, cr⟩
      rw [hrec] at h
      cases cr with
      | false => dsimp only at h; simp only [Prod.mk.injEq] at h; cases h.2
      | true =>
        dsimp only at h
        by_cases hge : i + 1 ≥ ms.length
        · rw [if_pos hge] at h
          simp only [Prod.mk.injEq] at h
          rw [← h.1, ih is0 js hv0 hrec]
          simp [List.replicate_succ]
        · rw [if_neg hge] at h
          simp only [Prod.mk.injEq] at h
          cases h.2

/-- One iterator step: on valid indices the remaining suffix starts with
the current combination, and the incremented indices (when no carry is
produced) are valid again and carry exactly the rest of the suffix. -/
theorem incr_step (sm : SnakeMoves) :
    ∀ (is is2 : List Nat) (carry : Bool),
      ValidIdx sm is → (∀ p ∈ sm, p.2 ≠ []) →
      MoveCombinationIterator.incrIndices (sm.map (fun p => p.2.length)) is = (is2, carry) →
      suffixFrom sm is
        = MoveCombinationIterator.currentCombination sm is
            :: (cond carry [] (suffixFrom sm is2))
      ∧ (carry = false → ValidIdx sm is2) := by
  induction sm with
  | nil =>
    intro is is2 carry hv hne h
    cases is with
    | cons _ _ => exact absurd hv (by simp [ValidIdx])
    | nil =>
      simp only [List.map_nil, MoveCombinationIterator.incrIndices, Prod.mk.injEq] at h
      obtain ⟨h1, h2⟩ := h
      rw [← h2]
      exact ⟨rfl, by intro hf; cases hf⟩
  | cons p rest ih =>
    intro is is2 carry hv hne h
    obtain ⟨sid, ms⟩ := p
    cases is with
    | nil => exact absurd hv (by simp [ValidIdx])
    | cons i is0 =>
      obtain ⟨hi, hv0⟩ := hv
      have hms : ms ≠ [] := hne (sid, ms) (List.mem_cons_self _ _)
      have hrest : ∀ q ∈ rest, q.2 ≠ [] := fun q hq => hne q (List.mem_cons_of_mem _ hq)
      simp only [List.map_cons, MoveCombinationIterator.incrIndices] at h
      rcases hrec : MoveCombinationIterator.incrIndices (rest.map (fun p => p.2.length)) is0
        with ⟨js, cr⟩
      rw [hrec] at h
      obtain ⟨hsuf, hval⟩ := ih is0 js cr hv0 hrest hrec
      cases cr with
      | false =>
        dsimp only at h
        simp only [Prod.mk.injEq] at h
        obtain ⟨h1, h2⟩ := h
        rw [← h1, ← h2]
        constructor
        · simp only [suffixFrom, MoveCombinationIterator.currentCombination,
            List.zip_cons_cons, List.map_cons] at *
          rw [hsuf]
          simp only [cond_false, cond_true, List.map_cons, List.cons_append]
        · intro _
          exact ⟨hi, hval rfl⟩
      | true =>
        dsimp only at h
        have hjs : js = List.replicate rest.length 0 :=
          incrIndices_carry_eq_zeros rest is0 js hv0 hrec
        by_cases hge : i + 1 ≥ ms.length
        · rw [if_pos hge] at h
          simp only [Prod.mk.injEq] at h
          obtain ⟨h1, h2⟩ := h
          rw [← h2]
          refine ⟨?_, by intro hf; cases hf⟩
          simp only [suffixFrom, MoveCombinationIterator.currentCombination,
            List.zip_cons_cons, List.map_cons] at *
          rw [hsuf]
          have hdrop : ms.drop (i + 1) = [] := List.drop_eq_nil_of_le hge
          rw [hdrop]
          simp only [cond_true, List.flatMap_nil, List.map_cons, List.map_nil,
            List.cons_append, List.nil_append, List.append_nil]
        · rw [if_neg hge] at h
          simp only [Prod.mk.injEq] at h
          obtain ⟨h1, h2⟩ := h
          rw [← h1, ← h2]
          push_neg at hge
          constructor
          · simp only [suffixFrom, MoveCombinationIterator.currentCombination,
              List.zip_cons_cons, List.map_cons] at *
            rw [hsuf, hjs, suffixFrom_zeros rest hrest]
            rw [List.drop_eq_getElem_cons hge, List.flatMap_cons]
            rw [List.getD_eq_getElem ms Move.up hge]
            simp only [cond_true, cond_false, List.map_cons, List.map_nil,
              List.cons_append, List.nil_append, List.append_assoc]
          · intro _
            refine ⟨hge, ?_⟩
            rw [hjs]
            exact validIdx_zeros rest hrest

/-- An exhausted iterator never yields again. -/
theorem drain_exhausted (n : Nat) (it : MoveCombinationIterator) (h : it.exhausted = true) :
    MoveCombinationIterator.drain n it = [] := by
  cases n with
  | zero => rfl
  | succ n =>
    show (match it.next with
      | (none, _) => []
      | (some c, it2) => c :: MoveCombinationIterator.drain n it2) = []
    simp [MoveCombinationIterator.next, h]

/-- Draining a live iterator state with enough fuel yields exactly the
remaining suffix of the cartesian product. -/
theorem drain_suffixFrom :
    ∀ (n : Nat) (sm : SnakeMoves) (is : List Nat),
      sm ≠ [] → (∀ p ∈ sm, p.2 ≠ []) → ValidIdx sm is →
      (suffixFrom sm is).length ≤ n →
      MoveCombinationIterator.drain n ⟨sm, is, false⟩ = suffixFrom sm is := by
  intro n
  induction n with
  | zero =>
    intro sm is hsm hne hv hlen
    rcases hstep : MoveCombinationIterator.incrIndices (sm.map (fun p => p.2.length)) is
      with ⟨is2, carry⟩
    obtain ⟨hsuf, _⟩ := incr_step sm is is2 carry hv hne hstep
    rw [hsuf, List.length_cons] at hlen
    omega
  | succ n ih =>
    intro sm is hsm hne hv hlen
    rcases hstep : MoveCombinationIterator.incrIndices (sm.map (fun p => p.2.length)) is
      with ⟨is2, carry⟩
    obtain ⟨hsuf, hval⟩ := incr_step sm is is2 carry hv hne hstep
    have hne2 : sm.isEmpty = false := by
      cases sm with
      | nil => exact absurd rfl hsm
      | cons a l => rfl
    have hnext : MoveCombinationIterator.next ⟨sm, is, false⟩
        = (some (MoveCombinationIterator.currentCombination sm is), ⟨sm, is2, carry⟩) := by
      simp only [MoveCombinationIterator.next, hne2, hstep]
      rfl
    show (match MoveCombinationIterator.next ⟨sm, is, false⟩ with
      | (none, _) => []
      | (some c, it2) => c :: MoveCombinationIterator.drain n it2) = suffixFrom sm is
    rw [hnext, hsuf]
    cases carry with
    | true =>
      simp only [cond_true]
      rw [drain_exhausted n ⟨sm, is2, true⟩ rfl]
    | false =>
      simp only [cond_false]
      have hvl : ValidIdx sm is2 := hval rfl
      have hlen2 : (suffixFrom sm is2).length ≤ n := by
        rw [hsuf] at hlen
        simp only [List.length_cons, cond_false] at hlen
        omega
      rw [ih sm is2 hsm hne hvl hlen2]

/-- The iterator's full yield equals the mixed-radix cartesian product. -/
theorem collectCombinations_eq_cartesianProduct :
    ∀ sm : SnakeMoves, collectCombinations sm = cartesianProduct sm := by
    intro sm
    by_cases hempty : ∃ p ∈ sm, p.2 = []
    · have hany : sm.any (fun p => p.2.isEmpty) = true := by
        rw [List.any_eq_true]
        obtain ⟨p, hp, hp2⟩ := hempty
        exact ⟨p, hp, by rw [hp2]; rfl⟩
      have hnew : MoveCombinationIterator.new sm
          = ⟨sm, List.replicate sm.length 0, true⟩ := by
        simp [MoveCombinationIterator.new, hany]
      rw [collectCombinations, hnew, drain_exhausted _ _ rfl]
      exact ((cartesianProduct_eq_nil_iff sm).mpr hempty).symm
    · push_neg at hempty
      cases sm with
      | nil => rfl
      | cons a l =>
        have hcons : (a :: l : SnakeMoves) ≠ [] := by simp
        have hany : (a :: l : SnakeMoves).any (fun p => p.2.isEmpty) = false := by
          rw [Bool.eq_false_iff]
          intro hx
          rw [List.any_eq_true] at hx
          obtain ⟨p, hp, hp2⟩ := hx
          exact hempty p hp (List.isEmpty_iff.mp hp2)
        have hnew : MoveCombinationIterator.new (a :: l)
            = ⟨a :: l, List.replicate (a :: l : SnakeMoves).length 0, false⟩ := by
          simp only [MoveCombinationIterator.new, hany]
        have hlen : (suffixFrom (a :: l) (List.replicate (a :: l : SnakeMoves).length 0)).length
            ≤ ((a :: l : SnakeMoves).map (fun p => p.2.length)).prod + 1 := by
          rw [suffixFrom_zeros _ hempty, length_cartesianProduct]
          omega
        rw [collectCombinations, hnew,
          drain_suffixFrom _ _ _ hcons hempty (validIdx_zeros _ hempty) hlen,
          suffixFrom_zeros _ hempty]

/-- C5: the joint-move enumerator yields exactly the cartesian product of
the per-snake move lists in mixed-radix order (last snake fastest); it
yields nothing exactly when some snake's list is empty, yields exactly the
single empty combination exactly when there are no snakes, and on
`snake0:[Up,Down]`, `snake1:[Left,Right]` yields the four pairs
`(Up,Left), (Up,Right), (Down,Left), (Down,Right)` in that order. -/
theorem claim_C5 :
    (∀ sm : SnakeMoves, collectCombinations sm = cartesianProduct sm)
    ∧ (∀ sm : SnakeMoves, collectCombinations sm = [] ↔ ∃ p ∈ sm, p.2 = [])
    ∧ (∀ sm : SnakeMoves, collectCombinations sm = [[]] ↔ sm = [])
    ∧ collectCombinations [(0, [Move.up, Move.down]), (1, [Move.left, Move.right])]
        = [[(0, Move.up), (1, Move.left)], [(0, Move.up), (1, Move.right)],
           [(0, Move.down), (1, Move.left)], [(0, Move.down), (1, Move.right)]] := by
  refine ⟨collectCombinations_eq_cartesianProduct, ?_, ?_, by decide⟩
  · intro sm
    rw [collectCombinations_eq_cartesianProduct sm]
    exact cartesianProduct_eq_nil_iff sm
  · intro sm
    constructor
    · intro h
      rw [collectCombinations_eq_cartesianProduct sm] at h
      cases sm with
      | nil => rfl
      | cons p rest =>
        exfalso
        apply nil_not_mem_cartesianProduct p rest
        rw [h]
        exact List.mem_singleton_self []
    · intro h
      rw [h]
      rfl

/-- A left fold with a two-way selector stays in the accumulator-or-list
range. -/
theorem foldl_choice_mem {α : Type} (f : α → α → α)
    (hf : ∀ a b, f a b = a ∨ f a b = b) :
    ∀ (l : List α) (acc : α), l.foldl f acc = acc ∨ l.foldl f acc ∈ l := by
  intro l
  induction l with
  | nil => intro acc; exact Or.inl rfl
  | cons z zs ih =>
    intro acc
    rw [List.foldl_cons]
    rcases ih (f acc z) with hm | hm
    · rw [hm]
      rcases hf acc z with h1 | h1
      · rw [h1]; exact Or.inl rfl
      · rw [h1]; exact Or.inr (List.mem_cons_self _ _)
    · exact Or.inr (List.mem_cons_of_mem _ hm)

/-- The reduction of `max_by_ucb1` returns an element of its input list. -/
theorem max_by_ucb1_mem {α : Type} (c : ℝ) (pv : Nat) (cnt : α → NodeCounters)
    (l : List α) (x : α) (h : max_by_ucb1 c pv cnt l = some x) : x ∈ l := by
  cases l with
  | nil => cases h
  | cons a as =>
    simp only [max_by_ucb1, Option.some.injEq] at h
    have := foldl_choice_mem
      (fun acc y =>
        if ucb1_from_ref (cnt acc) c (pv : ℝ) >
            ucb1_from_ref (cnt y) c (((cnt y).visits : ℝ)) then acc else y)
      (by
        intro p q
        by_cases hc : ucb1_from_ref (cnt p) c (pv : ℝ) >
            ucb1_from_ref (cnt q) c (((cnt q).visits : ℝ))
        · exact Or.inl (if_pos hc)
        · exact Or.inr (if_neg hc))
      as a
    rw [h] at this
    rcases this with h1 | h1
    · rw [h1]; exact List.mem_cons_self _ _
    · exact List.mem_cons_of_mem _ h1

/-- The reduction of `max_by_ucb1` answers `none` exactly on the empty list. -/
theorem max_by_ucb1_eq_none_iff {α : Type} (c : ℝ) (pv : Nat)
    (cnt : α → NodeCounters) (l : List α) :
    max_by_ucb1 c pv cnt l = none ↔ l = [] := by
  cases l with
  | nil => simp [max_by_ucb1]
  | cons a as => simp [max_by_ucb1]

/-- The per-node bound is monotone in the bound. -/
theorem boundedLE_mono {β : Type} {k k2 : Nat} {t : MTree β}
    (hk : k ≤ k2) (h : BoundedLE k t) : BoundedLE k2 t := by
  induction h generalizing k2 with
  | mk hw hv _ ih =>
    exact BoundedLE.mk hw (le_trans hv hk) (fun q hq => ih q hq hk)

/-- A freshly built child node satisfies every bound. -/
theorem boundedLE_new_child {β : Type} (sim : SimModel β) (b : β) (k : Nat) :
    BoundedLE k (new_child sim b) :=
  BoundedLE.mk (Nat.le_refl 0) (Nat.zero_le k) (fun q hq => absurd hq (List.not_mem_nil q))

/-- The rollout outcome is the 0/1 win indicator. -/
theorem rolloutT_le_one {β : Type} (sim : SimModel β) (you rng : Nat) (b : β) :
    rolloutT sim you rng b ≤ 1 := by
  rw [rolloutT]
  split <;> omega

/-- Every entry of an ordered-insert result is the inserted pair or an old
entry. -/
theorem insertChild_mem {β : Type} (a : Nat) (t : MTree β) :
    ∀ (ch : List (Nat × MTree β)) (q : Nat × MTree β),
      q ∈ insertChild a t ch → q = (a, t) ∨ q ∈ ch := by
  intro ch
  induction ch with
  | nil =>
    intro q hq
    simp only [insertChild] at hq
    rcases List.mem_singleton.mp hq with h
    exact Or.inl h
  | cons p rest ih =>
    intro q hq
    obtain ⟨bk, u⟩ := p
    simp only [insertChild] at hq
    by_cases h1 : a < bk
    · rw [if_pos h1] at hq
      rcases List.mem_cons.mp hq with h2 | h2
      · exact Or.inl h2
      · exact Or.inr h2
    · rw [if_neg h1] at hq
      by_cases h2 : a = bk
      · rw [if_pos h2] at hq
        rcases List.mem_cons.mp hq with h3 | h3
        · exact Or.inl h3
        · exact Or.inr (List.mem_cons_of_mem _ h3)
      · rw [if_neg h2] at hq
        rcases List.mem_cons.mp hq with h3 | h3
        · exact Or.inr (by rw [h3]; exact List.mem_cons_self _ _)
        · rcases ih q h3 with h4 | h4
          · exact Or.inl h4
          · exact Or.inr (List.mem_cons_of_mem _ h4)

/-- Every entry after writing back the updated child is the written pair
or an old entry. -/
theorem replaceChild_mem {β : Type} (a : Nat) (t : MTree β)
    (ch : List (Nat × MTree β)) (q : Nat × MTree β)
    (hq : q ∈ replaceChild a t ch) : q = (a, t) ∨ q ∈ ch := by
  rw [replaceChild] at hq
  rcases List.mem_map.mp hq with ⟨p, hp, hpe⟩
  by_cases h1 : p.1 = a
  · rw [if_pos h1] at hpe; exact Or.inl hpe.symm
  · rw [if_neg h1] at hpe; right; rw [← hpe]; exact hp

/-- Expansion preserves the counter bounds: the popped element leaves the
counters untouched and the inserted child is freshly zeroed. -/
theorem boundedLE_expandT {β : Type} (sim : SimModel β) {k : Nat} {t : MTree β}
    (h : BoundedLE k t) : BoundedLE k (expandT sim t) := by
  cases t with
  | node b w v pend ch =>
    cases h with
    | mk hw hv hch =>
      cases pend with
      | nil => exact BoundedLE.mk hw hv hch
      | cons mv rest =>
        refine BoundedLE.mk hw hv ?_
        intro q hq
        rcases insertChild_mem _ _ _ q hq with h1 | h1
        · rw [h1]
          exact boundedLE_new_child sim _ k
        · exact hch q h1

/-- The backpropagation bump on one node keeps `wins ≤ visits` and raises
the bound by one while the counters stay below the `u16` wrap. -/
theorem boundedLE_bumpT {β : Type} {k : Nat} {t : MTree β} (hk : k ≤ 65534)
    (h : BoundedLE k t) (r : Nat) (hr : r ≤ 1) : BoundedLE (k + 1) (bumpT t r) := by
  cases t with
  | node b w v pend ch =>
    cases h with
    | mk hw hv hch =>
      have hv1 : v + 1 < 65536 := by omega
      have hw1 : w + r < 65536 := by omega
      show BoundedLE (k + 1) (.node b ((w + r) % 65536) ((v + 1) % 65536) pend ch)
      rw [Nat.mod_eq_of_lt hw1, Nat.mod_eq_of_lt hv1]
      refine BoundedLE.mk (by omega) (by omega) ?_
      intro q hq
      exact boundedLE_mono (Nat.le_succ k) (hch q hq)

/-- One completed search iteration preserves `wins ≤ visits` at every
node, raises the bound by one, and reports a 0/1 outcome. -/
theorem mctsIter_boundedLE {β : Type} (sim : SimModel β) (you rng : Nat) :
    ∀ (dfuel : Nat) (t t2 : MTree β) (r k : Nat),
      k ≤ 65534 → BoundedLE k t →
      mctsIter sim you rng dfuel t = some (t2, r) →
      BoundedLE (k + 1) t2 ∧ r ≤ 1 := by
  intro dfuel
  induction dfuel with
  | zero => intro t t2 r k _ _ h; cases h
  | succ n ih =>
    intro t t2 r k hk hb h
    cases t with
    | node b w v pend ch =>
      rw [mctsIter] at h
      by_cases hcond : sim.isOver b = false ∧ pend = []
      · rw [if_pos hcond] at h
        rcases hbc : best_childT (1.4 : ℝ) v ch with _ | ⟨a, c⟩
        · rw [hbc] at h; cases h
        · rw [hbc] at h
          dsimp only at h
          rcases hrec : mctsIter sim you rng n c with _ | ⟨c2, r2⟩
          · rw [hrec] at h; cases h
          · rw [hrec] at h
            dsimp only at h
            simp only [Option.some.injEq, Prod.mk.injEq] at h
            obtain ⟨ht, hr⟩ := h
            have hmem : (a, c) ∈ ch := max_by_ucb1_mem _ _ _ ch (a, c) hbc
            cases hb with
            | mk hw hv hch =>
              obtain ⟨hc2, hr2⟩ := ih c c2 r2 k hk (hch (a, c) hmem) hrec
              rw [hr] at hr2
              refine ⟨?_, hr2⟩
              rw [← ht]
              have hv1 : v + 1 < 65536 := by omega
              have hw1 : w + r2 < 65536 := by omega
              rw [Nat.mod_eq_of_lt hw1, Nat.mod_eq_of_lt hv1]
              refine BoundedLE.mk (by omega) (by omega) ?_
              intro q hq
              rcases replaceChild_mem a c2 ch q hq with h1 | h1
              · rw [h1]; exact hc2
              · exact boundedLE_mono (Nat.le_succ k) (hch q h1)
      · rw [if_neg hcond] at h
        simp only [Option.some.injEq, Prod.mk.injEq] at h
        obtain ⟨ht, hr⟩ := h
        have hr0 : rolloutT sim you rng b ≤ 1 := rolloutT_le_one sim you rng b
        have ht1 : BoundedLE k
            (if sim.isOver b then MTree.node b w v pend ch
             else expandT sim (MTree.node b w v pend ch)) := by
          split
          · exact hb
          · exact boundedLE_expandT sim hb
        rw [hr] at hr0
        refine ⟨?_, hr0⟩
        rw [← ht]
        exact boundedLE_bumpT hk ht1 _ (rolloutT_le_one sim you rng b)

/-- The search loop preserves the per-node counter bounds, raising the
bound by at most one per iteration. -/
theorem mcts_searchAux_boundedLE {β : Type} (sim : SimModel β) (you : Nat)
    (stop : Nat → Bool) (rngs : Nat → Nat) :
    ∀ (fuel i k : Nat) (t : MTree β),
      k + fuel ≤ 65535 → BoundedLE k t →
      BoundedLE (k + fuel) (mcts_searchAux sim you stop rngs i fuel t) := by
  intro fuel
  induction fuel with
  | zero =>
    intro i k t _ hb
    rw [mcts_searchAux]
    simpa using hb
  | succ n ih =>
    intro i k t hk hb
    rw [mcts_searchAux]
    by_cases hstop : stop i = true
    · rw [if_pos hstop]
      exact boundedLE_mono (by omega) hb
    · rw [if_neg hstop]
      rcases hit : mctsIter sim you (rngs i) (i + 2) t with _ | ⟨t2, r⟩
      · exact boundedLE_mono (by omega) hb
      · obtain ⟨hb2, _⟩ :=
          mctsIter_boundedLE sim you (rngs i) (i + 2) t t2 r k (by omega) hb hit
        have harr : k + (n + 1) = (k + 1) + n := by omega
        rw [harr]
        exact ih (i + 1) (k + 1) t2 (by omega) hb2

/-- C7 amended: each backpropagation adds 1 to `visits` and a 0/1 outcome
to `wins` modulo 2 ^ 16; starting a search from a freshly zeroed root,
`0 ≤ wins ≤ visits` holds at every node after any run of at most 65535
iterations (and `visits` never exceeds the iteration count); with 2 ^ 16
or more passes the 16-bit counters can wrap and break the invariant. -/
theorem claim_C7 {β : Type} (sim : SimModel β) (you : Nat) (stop : Nat → Bool)
    (rngs : Nat → Nat) (fuel : Nat) (b : β) (hfuel : fuel ≤ 65535) :
    BoundedLE fuel (mcts_search sim you stop rngs fuel (new_root sim b)) := by
  have h0 : BoundedLE 0 (new_root sim b) := boundedLE_new_child sim b 0
  have h := mcts_searchAux_boundedLE sim you stop rngs fuel 0 0 (new_root sim b)
    (by omega) h0
  rw [mcts_search]
  simpa using h

/-- Witness for C7 on a concrete simulator, budget and board. -/
theorem claim_C7_witness :
    (3 : Nat) ≤ 65535
    ∧ BoundedLE 3 (mcts_search simStuck 0 (fun _ => false) (fun _ => 0) 3
        (new_root simStuck 5)) :=
  ⟨by norm_num, claim_C7 simStuck 0 (fun _ => false) (fun _ => 0) 3 5 (by norm_num)⟩

/-- C6: when the stop flag already reads true at the first check, the
search returns with the tree untouched — no expansion, rollout or
backpropagation — so the root's visit counter still reads 0. -/
theorem claim_C6 {β : Type} (sim : SimModel β) (you : Nat) (stop : Nat → Bool)
    (rngs : Nat → Nat) (fuel : Nat) (b : β) (hstop : stop 0 = true) :
    mcts_search sim you stop rngs fuel (new_root sim b) = new_root sim b
    ∧ (new_root sim b).visits = 0 := by
  constructor
  · rw [mcts_search]
    cases fuel with
    | zero => rw [mcts_searchAux]
    | succ n =>
      rw [mcts_searchAux, if_pos hstop]
  · rfl

/-- Witness for C6: stop constantly true on a concrete run. -/
theorem claim_C6_witness :
    ((fun _ : Nat => true) 0 = true)
    ∧ mcts_search simStuck 0 (fun _ => true) (fun _ => 0) 7 (new_root simStuck 5)
        = new_root simStuck 5
    ∧ (new_root simStuck 5).visits = 0 :=
  ⟨rfl, claim_C6 simStuck 0 (fun _ => true) (fun _ => 0) 7 5 rfl⟩

/-- C4 amended: `best_child` answers `Some` exactly when the child map is
nonempty, and the descent's failure branch is reachable — a board that is
not over but gives some live snake an empty reasonable-move list yields a
root whose pending queue and child map are both empty, so the node is
non-terminal and fully expanded yet `best_child` answers `None` and the
iteration aborts (the source `expect` panics); the code does not treat
such a node as terminal. -/
theorem claim_C4 {β : Type} (sim : SimModel β) (you rng dfuel : Nat) (b : β)
    (hover : sim.isOver b = false)
    (hstuck : ∃ p ∈ sim.reasonable b, p.2 = []) :
    (∀ (c : ℝ) (pv : Nat) (ch : List (Nat × MTree β)),
        best_childT c pv ch = none ↔ ch = [])
    ∧ (new_root sim b).pending = []
    ∧ (new_root sim b).children = []
    ∧ mctsIter sim you rng (dfuel + 1) (new_root sim b) = none := by
  have hpend : collectCombinations (sim.reasonable b) = [] := by
    rw [collectCombinations_eq_cartesianProduct]
    exact (cartesianProduct_eq_nil_iff _).mpr hstuck
  have hroot : new_root sim b = MTree.node b 0 0 [] [] := by
    rw [new_root, new_child, hpend]
  refine ⟨fun c pv ch => max_by_ucb1_eq_none_iff c pv _ ch, ?_, ?_, ?_⟩
  · rw [hroot]; rfl
  · rw [hroot]; rfl
  · rw [hroot, mctsIter, if_pos ⟨hover, rfl⟩]
    rw [show best_childT (1.4 : ℝ) 0 ([] : List (Nat × MTree β)) = none from rfl]

/-- Witness for C4 on the concrete stuck-snake simulator at board 0. -/
theorem claim_C4_witness :
    simStuck.isOver 0 = false
    ∧ (∃ p ∈ simStuck.reasonable 0, p.2 = [])
    ∧ ((∀ (c : ℝ) (pv : Nat) (ch : List (Nat × MTree Nat)),
          best_childT c pv ch = none ↔ ch = [])
       ∧ (new_root simStuck 0).pending = []
       ∧ (new_root simStuck 0).children = []
       ∧ mctsIter simStuck 0 0 (1 + 1) (new_root simStuck 0) = none) :=
  ⟨rfl, ⟨(0, []), by decide, rfl⟩,
    claim_C4 simStuck 0 0 1 0 rfl ⟨(0, []), by decide, rfl⟩⟩

/-- C4 fails as stated: on the stuck-snake board 0 the fresh root is not
terminal and is fully expanded (its pending queue is empty from birth),
yet its child map is empty and `best_child` answers `None`, so the
descent's `expect` branch is reached and the iteration aborts. -/
theorem claim_C4_counterexample :
    simStuck.isOver 0 = false
    ∧ (new_root simStuck 0).pending = []
    ∧ (new_root simStuck 0).children = []
    ∧ best_childT 1.4 ((new_root simStuck 0).visits) ((new_root simStuck 0).children) = none
    ∧ mctsIter simStuck 0 0 3 (new_root simStuck 0) = none := by
  have hroot : new_root simStuck 0 = MTree.node 0 0 0 [] [] := rfl
  refine ⟨rfl, by rw [hroot]; rfl, by rw [hroot]; rfl, ?_, ?_⟩
  · rw [hroot]
    rfl
  · rw [hroot, mctsIter, if_pos ⟨rfl, rfl⟩]
    rw [show best_childT (1.4 : ℝ) 0 ([] : List (Nat × MTree Nat)) = none from rfl]
